import Mathlib

set_option maxHeartbeats 1000000
set_option linter.unusedVariables false

namespace Sylas

/-! # Shallow embedding of the template-server repository

The repository has three variants of the same Bun HTTP server:
`src/api/server.ts` (the current, named file), `src/unnamed/part_000`
(an earlier variant: no per-name queue, no spawn-error handler, a
build-only update pipeline, and a server file at the project root),
and `src/unnamed/part_001` (a variant with the queue whose catch
replaces a rejected chain with a "Previous task failed" response and
whose update first removes the `_package` subdirectory).

Paths are modelled as segment lists, the file system as a finite
association list from paths to file contents, the per-name serializer
(`queue` / `TEMPLATE_LOCKS`) as a labelled transition system over the
link list and the name-to-link map, and the `pnpm` subprocess as an
opaque success oracle. -/

/-! ## Paths and the in-memory file system -/

abbrev Path := List String

abbrev FS := List (Path × String)

def hasFile (fs : FS) (p : Path) : Bool :=
  fs.any (fun e => e.1 == p)

/-- Overwrite `p` with content `c` (creating it when absent, as Bun `write` does;
the mutation operations below guard every write with an existence check first). -/
def writeFile (fs : FS) (p : Path) (c : String) : FS :=
  if hasFile fs p then fs.map (fun e => if e.1 == p then (p, c) else e)
  else (p, c) :: fs

/-- `isUnder p q` holds when path `q` lies at or below directory `p`. -/
def isUnder (p q : Path) : Bool := p == q.take p.length

/-- `rm -rf p`: drop every file at or below `p` (from `rm(..., {recursive, force})`). -/
def rmTree (fs : FS) (p : Path) : FS :=
  fs.filter (fun e => !(isUnder p e.1))

/-- One step of Node `path` normalization over segments: empty and `.` segments
vanish, `..` pops the last resolved segment (clamped at the root). -/
def normStep (acc : List String) (seg : String) : List String :=
  if seg == "" || seg == "." then acc
  else if seg == ".." then acc.dropLast
  else acc ++ [seg]

def normSegs (segs : List String) : List String := segs.foldl normStep []

/-! ## Name validation and scaffold target (from the `fetch` handlers and
`create_template`) -/

/-- Embeds `if (!name || /[\/\\]/.test(name)) return 400` applied to the already
trimmed `payload.name`: a name is accepted iff it is nonempty and contains no
slash and no backslash. -/
def valid_name (name : String) : Bool :=
  !(name == "") && !(name.data.any (fun c => c == '/' || c == '\\'))

/-- Embeds `path.join(OUTPUT_DIR, name)` from `create_template`, with the output
root `o` abstract (it is `path.resolve("../components")` at run time). -/
def create_template_target (o : Path) (name : String) : Path :=
  normSegs (o ++ [name])

/-! ## Mutation operations (`update_view` / `update_server`) -/

structure Cmd where
  exe : String
  args : List String
  cwd : Path
  deriving DecidableEq

inductive OpErr
  | notFound (p : Path)
  | pipeFail (c : Cmd)
  deriving DecidableEq

def view_path (o : Path) (name : String) : Path := o ++ [name, "src", "App.vue"]

/-- Target of `update_server` in `server.ts` and `part_001`:
`path.join(OUTPUT_DIR, name + '/src', "server.ts")`. -/
def server_path (o : Path) (name : String) : Path := o ++ [name, "src", "server.ts"]

/-- Target of `update_server` in `part_000`:
`path.join(OUTPUT_DIR, name, "server.ts")` — no `src` subdirectory. -/
def server_path_p000 (o : Path) (name : String) : Path := o ++ [name, "server.ts"]

/-- `update_view` (identical in all three variants): `access` the file first,
failing with the not-found error when it is absent; only then overwrite it. -/
def update_view (o : Path) (name content : String) (fs : FS) :
    FS × Except OpErr Unit :=
  if hasFile fs (view_path o name) then
    (writeFile fs (view_path o name) content, .ok ())
  else (fs, .error (.notFound (view_path o name)))

/-- `update_server` of `server.ts` and `part_001` (target under `src`). -/
def update_server (o : Path) (name content : String) (fs : FS) :
    FS × Except OpErr Unit :=
  if hasFile fs (server_path o name) then
    (writeFile fs (server_path o name) content, .ok ())
  else (fs, .error (.notFound (server_path o name)))

/-- `update_server` of `part_000` (target at the project-directory root). -/
def update_server_p000 (o : Path) (name content : String) (fs : FS) :
    FS × Except OpErr Unit :=
  if hasFile fs (server_path_p000 o name) then
    (writeFile fs (server_path_p000 o name) content, .ok ())
  else (fs, .error (.notFound (server_path_p000 o name)))

/-! ## The composite update task of each variant

JavaScript truthiness of the optional `view` / `server` payload fields:
an absent field and the empty string are both falsy. -/

def truthy : Option String → Bool
  | none => false
  | some s => !(s == "")

def pnpmInstall (o : Path) (name : String) : Cmd := ⟨"pnpm", ["install"], o ++ [name]⟩

def pnpmBuild (o : Path) (name : String) : Cmd := ⟨"pnpm", ["build"], o ++ [name]⟩

/-- Run a sequence of external commands in order, stopping at the first failure;
`runs` is the opaque environment oracle (exit status zero or not), and the
returned list is the trace of commands actually invoked. -/
def runPipeline (runs : Cmd → Bool) : List Cmd → List Cmd × Except OpErr Unit
  | [] => ([], .ok ())
  | c :: rest =>
    if runs c then
      let tr := runPipeline runs rest
      (c :: tr.1, tr.2)
    else ([c], .error (.pipeFail c))

/-- The update task queued by `server.ts`: apply `view` and `server` when truthy,
then run `pnpm install` and `pnpm build` iff at least one was truthy. -/
def serverTs_update_task (runs : Cmd → Bool) (o : Path) (name : String)
    (view server : Option String) (fs : FS) :
    FS × List Cmd × Except OpErr Unit :=
  match (if truthy view then update_view o name (view.getD "") fs else (fs, .ok ())) with
  | (fs1, .error e) => (fs1, [], .error e)
  | (fs1, .ok _) =>
    match (if truthy server then update_server o name (server.getD "") fs1 else (fs1, .ok ())) with
    | (fs2, .error e) => (fs2, [], .error e)
    | (fs2, .ok _) =>
      if truthy view || truthy server then
        let tr := runPipeline runs [pnpmInstall o name, pnpmBuild o name]
        (fs2, tr.1, tr.2)
      else (fs2, [], .ok ())

/-- The update task queued by `part_001`: first `rm -rf` the `_package`
subdirectory, then as in `server.ts`. -/
def part001_update_task (runs : Cmd → Bool) (o : Path) (name : String)
    (view server : Option String) (fs : FS) :
    FS × List Cmd × Except OpErr Unit :=
  match (if truthy view then update_view o name (view.getD "") (rmTree fs (o ++ [name, "_package"]))
         else (rmTree fs (o ++ [name, "_package"]), .ok ())) with
  | (fs1, .error e) => (fs1, [], .error e)
  | (fs1, .ok _) =>
    match (if truthy server then update_server o name (server.getD "") fs1 else (fs1, .ok ())) with
    | (fs2, .error e) => (fs2, [], .error e)
    | (fs2, .ok _) =>
      if truthy view || truthy server then
        let tr := runPipeline runs [pnpmInstall o name, pnpmBuild o name]
        (fs2, tr.1, tr.2)
      else (fs2, [], .ok ())

/-- The inline update handling of `part_000`: no `rm`, the root-level server
file, and a pipeline consisting of `pnpm build` only (no install step). -/
def part000_update_task (runs : Cmd → Bool) (o : Path) (name : String)
    (view server : Option String) (fs : FS) :
    FS × List Cmd × Except OpErr Unit :=
  match (if truthy view then update_view o name (view.getD "") fs else (fs, .ok ())) with
  | (fs1, .error e) => (fs1, [], .error e)
  | (fs1, .ok _) =>
    match (if truthy server then update_server_p000 o name (server.getD "") fs1 else (fs1, .ok ())) with
    | (fs2, .error e) => (fs2, [], .error e)
    | (fs2, .ok _) =>
      if truthy view || truthy server then
        let tr := runPipeline runs [pnpmBuild o name]
        (fs2, tr.1, tr.2)
      else (fs2, [], .ok ())

/-! ## `run_command`: the build-pipeline step over one subprocess event -/

/-- What the spawned child process does: emit a `close` event with an exit code,
or fail to spawn (the `error` event). -/
inductive ProcEvent
  | closed (code : Int)
  | spawnFail (msg : String)
  deriving DecidableEq

inductive RunOutcome
  | success
  | pipelineError (code : Int)
  | spawnError (msg : String)
  | noResult
  deriving DecidableEq

/-- `run_command` of `server.ts` and `part_001`: resolve on exit code zero,
reject with the exit code otherwise, and reject via the `error` handler when
the process could not be spawned. -/
def run_command (e : ProcEvent) : RunOutcome :=
  match e with
  | .closed code => if code == 0 then .success else .pipelineError code
  | .spawnFail msg => .spawnError msg

/-- `run_command` of `part_000`: identical on `close`, but there is no
`child.on("error", ...)` handler, so on a spawn failure neither `resolve` nor
`reject` is ever called and the promise never settles. -/
def run_command_p000 (e : ProcEvent) : RunOutcome :=
  match e with
  | .closed code => if code == 0 then .success else .pipelineError code
  | .spawnFail _ => .noResult

/-! ## `update_package_json`: the manifest rewrite

`pkg.scripts[key].replace(/\btemplate\b/g, name)` is a global word-boundary
replacement whose replacement string is subject to JavaScript `GetSubstitution`
processing of `$` patterns. -/

def TEMPLATE_WORD : List Char := "template".data

/-- JavaScript `\w`: ASCII letters, digits, underscore. -/
def isWordChar (c : Char) : Bool := c.isAlphanum || c == '_'

/-- Word boundary after a match: end of string or a non-word character. -/
def boundAfter : List Char → Bool
  | [] => true
  | c :: _ => !isWordChar c

/-- JavaScript `GetSubstitution` applied to the replacement string: `$$` is a
literal dollar, `$&` the matched text, a backtick-dollar the text before the
match, `$'` the text after; the pattern has no capture groups, so `$` followed
by anything else (digits included) is literal. -/
def processRepl (before matched after : List Char) : List Char → List Char
  | [] => []
  | c :: rest =>
    if c == '$' then
      match rest with
      | [] => ['$']
      | d :: rest2 =>
        if d == '$' then '$' :: processRepl before matched after rest2
        else if d == '&' then matched ++ processRepl before matched after rest2
        else if d == Char.ofNat 96 then before ++ processRepl before matched after rest2
        else if d == '\'' then after ++ processRepl before matched after rest2
        else '$' :: d :: processRepl before matched after rest2
    else c :: processRepl before matched after rest

/-- Left-to-right global scan for the standalone word `template`: a match needs
the previous character (tracked as `pw`) to be a non-word character and the
following character to be a non-word character or the end. `emit` produces the
replacement from the text before and after the match; the fuel is at least the
input length, and each step consumes at least one character. -/
def wordScanAux (emit : List Char → List Char → List Char) :
    Nat → Bool → List Char → List Char → List Char
  | 0, _, _, _ => []
  | _ + 1, _, _, [] => []
  | fuel + 1, pw, before, c :: rest =>
    if ((c :: rest).take 8 == TEMPLATE_WORD) && !pw && boundAfter ((c :: rest).drop 8) then
      emit before ((c :: rest).drop 8) ++
        wordScanAux emit fuel true (before ++ TEMPLATE_WORD) ((c :: rest).drop 8)
    else
      c :: wordScanAux emit fuel (isWordChar c) (before ++ [c]) rest

/-- `s.replace(/\btemplate\b/g, name)` as JavaScript executes it. -/
def jsReplaceWordTemplate (s name : String) : String :=
  String.mk (wordScanAux
    (fun before after => processRepl before TEMPLATE_WORD after name.data)
    s.data.length false [] s.data)

/-- Modelled from the spec: the same word-boundary scan, but the replacement
inserts `name` itself, literally (what "replacing the standalone word
template with name" asserts). Used only to compare against
`jsReplaceWordTemplate`. -/
def literalReplaceWordTemplate (s name : String) : String :=
  String.mk (wordScanAux (fun _ _ => name.data) s.data.length false [] s.data)

/-- The parsed manifest, restricted to the fields the rewrite touches. -/
structure Pkg where
  name : String
  scripts : List (String × String)
  deriving DecidableEq

/-- `update_package_json` on a parsed manifest: set the `name` field and rewrite
every script value. -/
def update_package_json (pkg : Pkg) (newName : String) : Pkg :=
  { name := newName,
    scripts := pkg.scripts.map (fun kv => (kv.1, jsReplaceWordTemplate kv.2 newName)) }

/-! ## The per-name serializer (`queue` and `TEMPLATE_LOCKS`)

A labelled transition system. Each call to `queue(name, task)` appends a
*link*; the link's task runs only after its predecessor promise fulfills
(`last.then`), a rejected predecessor is propagated without running the task
(the *skip* transition), and the `finally` cleanup deletes the map entry for
`name` iff that entry still points at the finished link. Tasks are opaque:
a number of internal await points (`steps`) followed by a fixed settlement
outcome. All callback bodies are synchronous JavaScript blocks, hence atomic
transitions. -/

inductive QVariant
  | main
  | alt
  | noqueue
  deriving DecidableEq

inductive Outcome
  | resolved (status : Nat) (body : String)
  | rejected (msg : String)
  deriving DecidableEq

structure QTask where
  steps : Nat
  out : Outcome
  deriving DecidableEq

inductive Phase
  | waiting
  | running (done : Nat)
  | settled (o : Outcome)
  deriving DecidableEq

structure Link where
  key : String
  task : QTask
  pred : Option Nat
  phase : Phase
  cleaned : Bool
  deriving DecidableEq

structure QState where
  links : List Link
  locks : List (String × Nat)
  deriving DecidableEq

def QState.lk (s : QState) (i : Nat) : Option Link := s.links[i]?

def qInit : QState := ⟨[], []⟩

def getLock (locks : List (String × Nat)) (k : String) : Option Nat :=
  (locks.find? (fun p => p.1 == k)).map (fun p => p.2)

def setLock (locks : List (String × Nat)) (k : String) (i : Nat) :
    List (String × Nat) :=
  (k, i) :: locks.filter (fun p => !(p.1 == k))

/-- `if (TEMPLATE_LOCKS.get(name) === next) TEMPLATE_LOCKS.delete(name)`. -/
def delIfCurrent (locks : List (String × Nat)) (k : String) (i : Nat) :
    List (String × Nat) :=
  if getLock locks k = some i then locks.filter (fun p => !(p.1 == k)) else locks

/-- Predecessor of a fresh link: the current map entry in the queued variants
(`TEMPLATE_LOCKS.get(name) || Promise.resolve(null)`), nothing in `part_000`
(which has no queue and runs every request immediately). -/
def enqPred (v : QVariant) (locks : List (String × Nat)) (k : String) : Option Nat :=
  match v with
  | .noqueue => none
  | _ => getLock locks k

def enqLocks (v : QVariant) (locks : List (String × Nat)) (k : String) (i : Nat) :
    List (String × Nat) :=
  match v with
  | .noqueue => locks
  | _ => setLock locks k i

/-- Settlement of a link whose predecessor rejected with `e` (the task is
skipped by `.then`): `server.ts` re-throws `e` after its conditional delete;
`part_001`'s catch returns the 500 "Previous task failed" response. -/
def skipOutcome (v : QVariant) (e : String) : Outcome :=
  match v with
  | .alt => .resolved 500 "Previous task failed"
  | _ => .rejected e

def skipLocks (v : QVariant) (locks : List (String × Nat)) (k : String) (i : Nat) :
    List (String × Nat) :=
  match v with
  | .main => delIfCurrent locks k i
  | _ => locks

/-- Settlement of a link whose own task settled with `o`: `part_001` converts a
rejection into the 500 response, the others propagate it. -/
def finishPhase (v : QVariant) (o : Outcome) : Phase :=
  match v, o with
  | .alt, .rejected _ => .settled (.resolved 500 "Previous task failed")
  | _, _ => .settled o

def finishLocks (v : QVariant) (locks : List (String × Nat)) (k : String) (i : Nat)
    (o : Outcome) : List (String × Nat) :=
  match v, o with
  | .main, .rejected _ => delIfCurrent locks k i
  | _, _ => locks

/-- `predResolved s p`: the predecessor promise (if any) has fulfilled. -/
def predResolved (s : QState) : Option Nat → Prop
  | none => True
  | some p => ∃ lp st b, s.lk p = some lp ∧ lp.phase = .settled (.resolved st b)

/-- `predRejected s pr e`: the predecessor promise rejected with `e`. -/
def predRejected (s : QState) (pr : Option Nat) (e : String) : Prop :=
  ∃ p lp, pr = some p ∧ s.lk p = some lp ∧ lp.phase = .settled (.rejected e)

inductive QLabel
  | enq (key : String) (task : QTask)
  | act (i : Nat)

inductive QStep (v : QVariant) : QLabel → QState → QState → Prop
  | enqueue (s : QState) (key : String) (task : QTask) :
      QStep v (.enq key task) s
        ⟨s.links ++ [⟨key, task, enqPred v s.locks key, .waiting, false⟩],
         enqLocks v s.locks key s.links.length⟩
  | start (s : QState) (i : Nat) (l : Link) :
      s.lk i = some l → l.phase = .waiting → predResolved s l.pred →
      QStep v (.act i) s ⟨s.links.set i { l with phase := .running 0 }, s.locks⟩
  | skip (s : QState) (i : Nat) (l : Link) (e : String) :
      s.lk i = some l → l.phase = .waiting → predRejected s l.pred e →
      QStep v (.act i) s
        ⟨s.links.set i { l with phase := .settled (skipOutcome v e) },
         skipLocks v s.locks l.key i⟩
  | work (s : QState) (i : Nat) (l : Link) (k : Nat) :
      s.lk i = some l → l.phase = .running k → k < l.task.steps →
      QStep v (.act i) s ⟨s.links.set i { l with phase := .running (k + 1) }, s.locks⟩
  | finish (s : QState) (i : Nat) (l : Link) (k : Nat) :
      s.lk i = some l → l.phase = .running k → k = l.task.steps →
      QStep v (.act i) s
        ⟨s.links.set i { l with phase := finishPhase v l.task.out },
         finishLocks v s.locks l.key i l.task.out⟩
  | cleanup (s : QState) (i : Nat) (l : Link) (o : Outcome) :
      v ≠ .noqueue →
      s.lk i = some l → l.phase = .settled o → l.cleaned = false →
      QStep v (.act i) s
        ⟨s.links.set i { l with cleaned := true }, delIfCurrent s.locks l.key i⟩

inductive Reaches (v : QVariant) : QState → QState → Prop
  | refl (s : QState) : Reaches v s s
  | tail {s t u : QState} (a : QLabel) : Reaches v s t → QStep v a t u → Reaches v s u

/-- Every queued task settles with a `Response` value (resolved outcome), which
is what the HTTP handlers enqueue: each wraps its operation in try/catch and
returns a 200 or 500 response, so an operation failure is a resolved 500. -/
def allResolved (s : QState) : Bool :=
  s.links.all (fun l => match l.task.out with | .resolved _ _ => true | _ => false)

def isSettledP : Phase → Prop
  | .settled _ => True
  | _ => False

/-- View of a state restricted to the links of one key (other keys erased). -/
def keyView (s : QState) (k : String) (i : Nat) : Option Link :=
  match s.lk i with
  | some l => if l.key = k then some l else none
  | none => none

/-- Two states agree on everything the serializer knows about key `k`. -/
def KeyAgree (k : String) (s t : QState) : Prop :=
  (∀ i, keyView s k i = keyView t k i) ∧ getLock s.locks k = getLock t.locks k

/-- The state produced by the `finally` cleanup of link `i`: mark it cleaned and
delete the map entry for its key iff the entry still points at `i`. -/
def cleanupSt (s : QState) (i : Nat) (l : Link) : QState :=
  ⟨s.links.set i { l with cleaned := true }, delIfCurrent s.locks l.key i⟩

/-- Every link's task settles with some `Response` (propositional form). -/
def AllR (s : QState) : Prop :=
  ∀ i l, s.lk i = some l → ∃ st b, l.task.out = .resolved st b

/-- Every settled link carries its own task's outcome. -/
def OwnOut (s : QState) : Prop :=
  ∀ i l o, s.lk i = some l → l.phase = .settled o → o = l.task.out

/-! ## Concrete tasks, states and traces used by the witnesses -/

/-- A scaffolded project "a" under output root `["components"]`. -/
def fsDemo : FS := [(["components", "a", "src", "App.vue"], "old")]

def tFail : QTask := ⟨0, .resolved 500 "boom"⟩

def tOk : QTask := ⟨0, .resolved 200 "ok"⟩

def tSlow : QTask := ⟨1, .resolved 200 "slow"⟩

/-- After `enqueue "p" tFail` in the `main` variant. -/
def sE1 : QState := ⟨[⟨"p", tFail, none, .waiting, false⟩], [("p", 0)]⟩

/-- `sE1` after `start 0`. -/
def sE2 : QState := ⟨[⟨"p", tFail, none, .running 0, false⟩], [("p", 0)]⟩

/-- After `enqueue "p" tFail; start 0; finish 0` in the `main` variant. -/
def sOne : QState :=
  ⟨[⟨"p", tFail, none, .settled (.resolved 500 "boom"), false⟩], [("p", 0)]⟩

/-- `sOne` after `enqueue "p" tOk`. -/
def sMid0 : QState :=
  ⟨[⟨"p", tFail, none, .settled (.resolved 500 "boom"), false⟩,
    ⟨"p", tOk, some 0, .waiting, false⟩], [("p", 1)]⟩

/-- `sOne` then `enqueue "p" tOk; start 1`. -/
def sMid : QState :=
  ⟨[⟨"p", tFail, none, .settled (.resolved 500 "boom"), false⟩,
    ⟨"p", tOk, some 0, .running 0, false⟩], [("p", 1)]⟩

/-- `sMid` then `finish 1`: both tasks done, second settled with its own result. -/
def sDone : QState :=
  ⟨[⟨"p", tFail, none, .settled (.resolved 500 "boom"), false⟩,
    ⟨"p", tOk, some 0, .settled (.resolved 200 "ok"), false⟩], [("p", 1)]⟩

/-- `sOne` after `enqueue "q" tSlow`. -/
def sTwoKeys0 : QState :=
  ⟨[⟨"p", tFail, none, .settled (.resolved 500 "boom"), false⟩,
    ⟨"q", tSlow, none, .waiting, false⟩], [("q", 1), ("p", 0)]⟩

/-- A `main`-variant state holding `sOne`'s "p" link together with a running
link for the unrelated key "q". -/
def sTwoKeys : QState :=
  ⟨[⟨"p", tFail, none, .settled (.resolved 500 "boom"), false⟩,
    ⟨"q", tSlow, none, .running 0, false⟩], [("q", 1), ("p", 0)]⟩

/-- `sTwoKeys` after a `work` step of the "q" link. -/
def sTwoKeysW : QState :=
  ⟨[⟨"p", tFail, none, .settled (.resolved 500 "boom"), false⟩,
    ⟨"q", tSlow, none, .running 1, false⟩], [("q", 1), ("p", 0)]⟩

/-- One accepted request for "a" in `part_000`. -/
def nE1 : QState := ⟨[⟨"a", tSlow, none, .waiting, false⟩], []⟩

/-- Two concurrently accepted requests for "a" in `part_000` (no queue: neither
is enqueued behind the other). -/
def nE2 : QState :=
  ⟨[⟨"a", tSlow, none, .waiting, false⟩, ⟨"a", tSlow, none, .waiting, false⟩], []⟩

/-- `nE2` with the first request mid-execution. -/
def nE3 : QState :=
  ⟨[⟨"a", tSlow, none, .running 0, false⟩, ⟨"a", tSlow, none, .waiting, false⟩], []⟩

/-- Two concurrent requests for the same name in `part_000`: both accepted,
neither queued behind the other, both mid-execution at once. -/
def sOverlap : QState :=
  ⟨[⟨"a", tSlow, none, .running 0, false⟩,
    ⟨"a", tSlow, none, .running 0, false⟩], []⟩

/-- Reachable-state invariant of the queued variants: the lock map points at
the newest, not-yet-cleaned link of its key and at nothing once the key is
quiescent; a link's `pred` dominates every older link of its key (`pred_max`)
or certifies that they were all settled (`pred_none`); and execution respects
enqueue order (`seq`). -/
structure QInv (s : QState) : Prop where
  lock_mem : ∀ k i, getLock s.locks k = some i →
    ∃ l, s.lk i = some l ∧ l.key = k ∧ l.cleaned = false
  lock_latest : ∀ k i j lj, getLock s.locks k = some i → i < j →
    s.lk j = some lj → lj.key ≠ k
  lock_none : ∀ k i li, getLock s.locks k = none → s.lk i = some li →
    li.key = k → isSettledP li.phase
  pred_max : ∀ j l p i li, s.lk j = some l → l.pred = some p → i < j →
    s.lk i = some li → li.key = l.key → i ≤ p
  pred_none : ∀ j l i li, s.lk j = some l → l.pred = none → i < j →
    s.lk i = some li → li.key = l.key → isSettledP li.phase
  pred_key : ∀ j l p, s.lk j = some l → l.pred = some p →
    ∃ lp, s.lk p = some lp ∧ lp.key = l.key
  seq : ∀ i li j lj, s.lk i = some li → s.lk j = some lj → i < j →
    li.key = lj.key → lj.phase ≠ .waiting → isSettledP li.phase

/-! ## Lemmas about the lock map -/

lemma getLock_nil (k : String) : getLock [] k = none := rfl

lemma getLock_filter_self (L : List (String × Nat)) (k : String) :
    getLock (L.filter fun p => !(p.1 == k)) k = none := by
  induction L with
  | nil => rfl
  | cons hd tl ih =>
    by_cases h : hd.1 == k
    · simp only [List.filter, h, Bool.not_true]
      exact ih
    · simp only [List.filter, h, Bool.not_false]
      simp only [getLock, List.find?, h]
      exact ih

lemma getLock_filter_other (L : List (String × Nat)) (k k' : String) (hk : k' ≠ k) :
    getLock (L.filter fun p => !(p.1 == k)) k' = getLock L k' := by
  induction L with
  | nil => rfl
  | cons hd tl ih =>
    by_cases h : hd.1 == k
    · have hne : (hd.1 == k') = false := by
        have : hd.1 = k := by simpa using h
        simp [this, Ne.symm hk]
      simp only [List.filter, h, Bool.not_true]
      rw [ih]
      simp [getLock, List.find?, hne]
    · simp only [List.filter, h, Bool.not_false]
      by_cases h2 : hd.1 == k'
      · simp [getLock, List.find?, h2]
      · simp only [getLock, List.find?, h2]
        exact ih

lemma getLock_setLock_self (L : List (String × Nat)) (k : String) (i : Nat) :
    getLock (setLock L k i) k = some i := by
  simp [getLock, setLock, List.find?]

lemma getLock_setLock_other (L : List (String × Nat)) (k k' : String) (i : Nat)
    (hk : k' ≠ k) :
    getLock (setLock L k i) k' = getLock L k' := by
  have hne : (k == k') = false := by simp [Ne.symm hk]
  simp only [setLock, getLock, List.find?, hne]
  exact getLock_filter_other L k k' hk

lemma getLock_del_self (L : List (String × Nat)) (k : String) (i : Nat)
    (h : getLock L k = some i) :
    getLock (delIfCurrent L k i) k = none := by
  simp only [delIfCurrent, h, if_pos rfl]
  exact getLock_filter_self L k

lemma delIfCurrent_of_ne (L : List (String × Nat)) (k : String) (i : Nat)
    (h : getLock L k ≠ some i) : delIfCurrent L k i = L := by
  simp [delIfCurrent, h]

lemma getLock_del_other (L : List (String × Nat)) (k k' : String) (i : Nat)
    (hk : k' ≠ k) :
    getLock (delIfCurrent L k i) k' = getLock L k' := by
  unfold delIfCurrent
  split
  · exact getLock_filter_other L k k' hk
  · rfl

/-- Any entry surviving a `delIfCurrent` was already present. -/
lemma getLock_del_le (L : List (String × Nat)) (k k' : String) (i m : Nat)
    (h : getLock (delIfCurrent L k i) k' = some m) : getLock L k' = some m := by
  by_cases hk : k' = k
  · subst hk
    unfold delIfCurrent at h
    split at h
    · rw [getLock_filter_self] at h
      exact absurd h (by simp)
    · exact h
  · rwa [getLock_del_other L k k' i hk] at h

/-! ## Lemmas about the link list -/

lemma lk_lt_length {s : QState} {i : Nat} {l : Link} (h : s.lk i = some l) :
    i < s.links.length := by
  by_contra hlt
  rw [QState.lk, List.getElem?_eq_none (Nat.le_of_not_lt hlt)] at h
  exact absurd h (by simp)

lemma lk_set_self {s : QState} {i : Nat} {l : Link} (h : s.lk i = some l)
    (l' : Link) (L : List (String × Nat)) :
    (QState.mk (s.links.set i l') L).lk i = some l' := by
  simp [QState.lk, List.getElem?_set_self (lk_lt_length h)]

lemma lk_set_other (s : QState) (i j : Nat) (l' : Link) (L : List (String × Nat))
    (hij : i ≠ j) :
    (QState.mk (s.links.set i l') L).lk j = s.lk j := by
  simp [QState.lk, List.getElem?_set_ne hij]

/-- Case split for a lookup in a one-position update. -/
lemma lk_set_cases {s : QState} {i j : Nat} {l' m : Link} {L : List (String × Nat)}
    (h : (QState.mk (s.links.set i l') L).lk j = some m) :
    (j = i ∧ m = l') ∨ (j ≠ i ∧ s.lk j = some m) := by
  by_cases hij : j = i
  · subst hij
    left
    refine ⟨rfl, ?_⟩
    have hlt : j < s.links.length := by
      have := lk_lt_length h
      simpa using this
    rw [QState.lk] at h
    rw [List.getElem?_set_self hlt] at h
    simpa using h.symm
  · right
    refine ⟨hij, ?_⟩
    rwa [lk_set_other s i j l' L (fun he => hij he.symm)] at h

lemma lk_append_old {s : QState} {i : Nat} {l : Link} (h : s.lk i = some l)
    (x : Link) (L : List (String × Nat)) :
    (QState.mk (s.links ++ [x]) L).lk i = some l := by
  rw [QState.lk, List.getElem?_append_left (lk_lt_length h)]
  exact h

lemma lk_append_new (s : QState) (x : Link) (L : List (String × Nat)) :
    (QState.mk (s.links ++ [x]) L).lk s.links.length = some x := by
  simp [QState.lk, List.getElem?_concat_length]

lemma lk_append_cases {s : QState} {i : Nat} {x m : Link} {L : List (String × Nat)}
    (h : (QState.mk (s.links ++ [x]) L).lk i = some m) :
    s.lk i = some m ∨ (i = s.links.length ∧ m = x) := by
  by_cases hlt : i < s.links.length
  · left
    rw [QState.lk, List.getElem?_append_left hlt] at h
    exact h
  · right
    have hle : s.links.length ≤ i := Nat.le_of_not_lt hlt
    have hlen : i < s.links.length + 1 := by
      have := lk_lt_length (s := ⟨s.links ++ [x], L⟩) (i := i) (l := m) h
      simpa using this
    have hi : i = s.links.length := Nat.le_antisymm (Nat.lt_succ_iff.mp hlen) hle
    subst hi
    refine ⟨rfl, ?_⟩
    rw [QState.lk, List.getElem?_concat_length] at h
    simpa using h.symm

/-! ## The serializer invariant (variants with a queue) -/

lemma ne_waiting_of_isSettledP {ph : Phase} (h : isSettledP ph) : ph ≠ .waiting := by
  intro hw
  rw [hw] at h
  exact h

lemma finishPhase_settled (v : QVariant) (o : Outcome) :
    ∃ o', finishPhase v o = .settled o' := by
  cases v <;> cases o <;> exact ⟨_, rfl⟩

lemma qinv_init : QInv qInit := by
  constructor <;> intros <;> simp_all [qInit, QState.lk, getLock]

/-- In an invariant state, if link `j`'s predecessor is settled, every older
link with `j`'s key is settled. -/
lemma settled_below_pred {s : QState} (H : QInv s) {j p : Nat} {l lp : Link}
    (hj : s.lk j = some l) (hp : l.pred = some p) (hlp : s.lk p = some lp)
    (hset : isSettledP lp.phase) :
    ∀ i li, i < j → s.lk i = some li → li.key = l.key → isSettledP li.phase := by
  intro i li hij hi hkey
  have hle : i ≤ p := H.pred_max j l p i li hj hp hij hi hkey
  rcases Nat.lt_or_eq_of_le hle with hlt | heq
  · obtain ⟨lp', hlp', hk'⟩ := H.pred_key j l p hj hp
    have heq' : lp' = lp := by
      rw [hlp'] at hlp
      exact Option.some.inj hlp
    subst heq'
    exact H.seq i li p lp' hi hlp' hlt (by rw [hkey, hk'])
      (ne_waiting_of_isSettledP hset)
  · subst heq
    have heq2 : li = lp := by
      rw [hi] at hlp
      exact Option.some.inj hlp
    rw [heq2]
    exact hset

/-- Once link `i` (the lock's current target for its key) and everything older
of its key are settled, every link of that key other than `i` is settled. -/
lemma settled_key_other {s : QState} (H : QInv s) {i : Nat} {l : Link}
    (hl : s.lk i = some l) (hcur : getLock s.locks l.key = some i)
    (hbelow : ∀ m lm, m < i → s.lk m = some lm → lm.key = l.key → isSettledP lm.phase) :
    ∀ m lm, m ≠ i → s.lk m = some lm → lm.key = l.key → isSettledP lm.phase := by
  intro m lm hmi hm hkey
  rcases Nat.lt_or_ge m i with h | h
  · exact hbelow m lm h hm hkey
  · have hlt : i < m := Nat.lt_of_le_of_ne h (Ne.symm hmi)
    exact absurd hkey (H.lock_latest l.key i m lm hcur hlt hm)

/-! Transfer of the link-shaped invariant fields through a one-link update that
keeps the link's key and pred (only its phase or cleaned flag changes), with a
lock map that only lost entries. -/

lemma pred_max_set {s : QState} {i : Nat} {l l' : Link} {L : List (String × Nat)}
    (hl : s.lk i = some l) (hkey : l'.key = l.key) (hpred : l'.pred = l.pred)
    (H : QInv s) :
    ∀ j m p i0 li, (QState.mk (s.links.set i l') L).lk j = some m →
      m.pred = some p → i0 < j → (QState.mk (s.links.set i l') L).lk i0 = some li →
      li.key = m.key → i0 ≤ p := by
  intro j m p i0 li hj hp hij hi hk
  rcases lk_set_cases hj with ⟨hji, hml⟩ | ⟨hne, hj0⟩ <;>
    rcases lk_set_cases hi with ⟨hii, hli⟩ | ⟨hne2, hi0⟩
  · rw [hji, hii] at hij
    exact absurd hij (Nat.lt_irrefl _)
  · rw [hji] at hij
    refine H.pred_max i l p i0 li hl ?_ hij hi0 ?_
    · rw [← hpred, ← hml]
      exact hp
    · rw [hk, hml, hkey]
  · rw [hii] at hij ⊢
    refine H.pred_max j m p i l hj0 hp hij hl ?_
    rw [← hk, hli, hkey]
  · exact H.pred_max j m p i0 li hj0 hp hij hi0 hk

lemma pred_key_set {s : QState} {i : Nat} {l l' : Link} {L : List (String × Nat)}
    (hl : s.lk i = some l) (hkey : l'.key = l.key) (hpred : l'.pred = l.pred)
    (H : QInv s) :
    ∀ j m p, (QState.mk (s.links.set i l') L).lk j = some m → m.pred = some p →
      ∃ lp, (QState.mk (s.links.set i l') L).lk p = some lp ∧ lp.key = m.key := by
  intro j m p hj hp
  have hold : ∃ m0, s.lk j = some m0 ∧ m0.key = m.key ∧ m0.pred = m.pred := by
    rcases lk_set_cases hj with ⟨rfl, rfl⟩ | ⟨hne, hj0⟩
    · exact ⟨l, hl, hkey.symm, hpred.symm⟩
    · exact ⟨m, hj0, rfl, rfl⟩
  obtain ⟨m0, hm0, hk0, hp0⟩ := hold
  obtain ⟨lp, hlp, hkp⟩ := H.pred_key j m0 p hm0 (by rw [hp0, hp])
  by_cases hpi : p = i
  · subst hpi
    have hlpl : lp = l := Option.some.inj (hlp.symm.trans hl)
    refine ⟨l', lk_set_self hl l' L, ?_⟩
    rw [hkey, ← hlpl, hkp, hk0]
  · refine ⟨lp, ?_, by rw [hkp, hk0]⟩
    rw [lk_set_other s i p l' L (fun he => hpi he.symm)]
    exact hlp

lemma lock_mem_set {s : QState} {i : Nat} {l l' : Link} {L : List (String × Nat)}
    (hl : s.lk i = some l) (hkey : l'.key = l.key) (hcl : l'.cleaned = l.cleaned)
    (hsub : ∀ k m, getLock L k = some m → getLock s.locks k = some m)
    (H : QInv s) :
    ∀ k m, getLock L k = some m →
      ∃ lm, (QState.mk (s.links.set i l') L).lk m = some lm ∧ lm.key = k ∧
        lm.cleaned = false := by
  intro k m hm
  obtain ⟨lm, hlm, hk, hc⟩ := H.lock_mem k m (hsub k m hm)
  by_cases hmi : m = i
  · subst hmi
    have hlml : lm = l := Option.some.inj (hlm.symm.trans hl)
    subst hlml
    exact ⟨l', lk_set_self hl l' L, by rw [hkey, hk], by rw [hcl, hc]⟩
  · refine ⟨lm, ?_, hk, hc⟩
    rw [lk_set_other s i m l' L (fun he => hmi he.symm)]
    exact hlm

lemma lock_latest_set {s : QState} {i : Nat} {l l' : Link} {L : List (String × Nat)}
    (hl : s.lk i = some l) (hkey : l'.key = l.key)
    (hsub : ∀ k m, getLock L k = some m → getLock s.locks k = some m)
    (H : QInv s) :
    ∀ k m j lj, getLock L k = some m → m < j →
      (QState.mk (s.links.set i l') L).lk j = some lj → lj.key ≠ k := by
  intro k m j lj hm hmj hj
  rcases lk_set_cases hj with ⟨rfl, rfl⟩ | ⟨hne, hj0⟩
  · rw [hkey]
    exact H.lock_latest k m j l (hsub k m hm) hmj hl
  · exact H.lock_latest k m j lj (hsub k m hm) hmj hj0

lemma getLock_shrink_none {L : List (String × Nat)} {k0 : String} {i : Nat}
    {L' : List (String × Nat)} (hL : L' = L ∨ L' = delIfCurrent L k0 i) :
    ∀ k, getLock L' k = none →
      getLock L k = none ∨ (k = k0 ∧ getLock L k = some i) := by
  intro k h
  rcases hL with rfl | rfl
  · exact Or.inl h
  · by_cases hk : k = k0
    · subst hk
      cases hcur : getLock L k with
      | none => exact Or.inl rfl
      | some m' =>
        by_cases hmi : m' = i
        · subst hmi
          exact Or.inr ⟨rfl, rfl⟩
        · rw [delIfCurrent_of_ne L k i
            (by rw [hcur]; intro hc; exact hmi (Option.some.inj hc))] at h
          rw [hcur] at h
          exact absurd h (by simp)
    · rw [getLock_del_other L k0 k i hk] at h
      exact Or.inl h

lemma getLock_shrink_sub {L : List (String × Nat)} {k0 : String} {i : Nat}
    {L' : List (String × Nat)} (hL : L' = L ∨ L' = delIfCurrent L k0 i) :
    ∀ k m, getLock L' k = some m → getLock L k = some m := by
  intro k m h
  rcases hL with rfl | rfl
  · exact h
  · exact getLock_del_le L k0 k i m h

/-- `seq` transfers through any one-link update whose earlier same-key links are
settled and which does not un-settle the link. -/
lemma seq_set {s : QState} (H : QInv s) {i : Nat} {l l' : Link}
    {L : List (String × Nat)}
    (hl : s.lk i = some l) (hkey : l'.key = l.key)
    (hbelow : ∀ q lq, q < i → s.lk q = some lq → lq.key = l.key → isSettledP lq.phase)
    (himp : isSettledP l.phase → isSettledP l'.phase) :
    ∀ i0 li j lj, (QState.mk (s.links.set i l') L).lk i0 = some li →
      (QState.mk (s.links.set i l') L).lk j = some lj → i0 < j →
      li.key = lj.key → lj.phase ≠ .waiting → isSettledP li.phase := by
  intro i0 li j lj hi hj hij hkm hph
  rcases lk_set_cases hj with ⟨hji, hml⟩ | ⟨hnej, hj0⟩ <;>
    rcases lk_set_cases hi with ⟨hii, hli⟩ | ⟨hnei, hi0⟩
  · rw [hji, hii] at hij
    exact absurd hij (Nat.lt_irrefl _)
  · rw [hji] at hij
    refine hbelow i0 li hij hi0 ?_
    rw [hkm, hml, hkey]
  · rw [hii] at hij
    have hsl : isSettledP l.phase := by
      refine H.seq i l j lj hl hj0 hij ?_ hph
      rw [← hkey, ← hli, hkm]
    rw [hli]
    exact himp hsl
  · exact H.seq i0 li j lj hi0 hj0 hij hkm hph

/-- `pred_none` transfers through any one-link update preserving key and pred
that does not un-settle the link. -/
lemma pred_none_set {s : QState} (H : QInv s) {i : Nat} {l l' : Link}
    {L : List (String × Nat)}
    (hl : s.lk i = some l) (hkey : l'.key = l.key) (hpred : l'.pred = l.pred)
    (himp : isSettledP l.phase → isSettledP l'.phase) :
    ∀ j m i0 li, (QState.mk (s.links.set i l') L).lk j = some m →
      m.pred = none → i0 < j → (QState.mk (s.links.set i l') L).lk i0 = some li →
      li.key = m.key → isSettledP li.phase := by
  intro j m i0 li hj hpn hij hi hkm
  rcases lk_set_cases hj with ⟨hji, hml⟩ | ⟨hnej, hj0⟩ <;>
    rcases lk_set_cases hi with ⟨hii, hli⟩ | ⟨hnei, hi0⟩
  · rw [hji, hii] at hij
    exact absurd hij (Nat.lt_irrefl _)
  · rw [hji] at hij
    refine H.pred_none i l i0 li hl ?_ hij hi0 ?_
    · rw [← hpred, ← hml]
      exact hpn
    · rw [hkm, hml, hkey]
  · rw [hii] at hij
    have hsl : isSettledP l.phase := by
      refine H.pred_none j m i l hj0 hpn hij hl ?_
      rw [← hkey, ← hli, hkm]
    rw [hli]
    exact himp hsl
  · exact H.pred_none j m i0 li hj0 hpn hij hi0 hkm

/-- `lock_none` transfers when the updated link is settled afterwards and the
lock map either kept its entries or dropped the updated link's own entry. -/
lemma lock_none_shrink {s : QState} (H : QInv s) {i : Nat} {l l' : Link}
    {L : List (String × Nat)}
    (hl : s.lk i = some l) (hkey : l'.key = l.key) (hset' : isSettledP l'.phase)
    (hL : L = s.locks ∨ L = delIfCurrent s.locks l.key i)
    (hbelow : ∀ q lq, q < i → s.lk q = some lq → lq.key = l.key → isSettledP lq.phase) :
    ∀ k m lm, getLock L k = none → (QState.mk (s.links.set i l') L).lk m = some lm →
      lm.key = k → isSettledP lm.phase := by
  intro k m lm hm hlm hkm
  rcases lk_set_cases hlm with ⟨hmi, hml⟩ | ⟨hne, hlm0⟩
  · rw [hml]
    exact hset'
  · rcases getLock_shrink_none hL k hm with hnone | ⟨hkk, hcur⟩
    · exact H.lock_none k m lm hnone hlm0 hkm
    · rw [hkk] at hkm hcur
      exact settled_key_other H hl hcur hbelow m lm hne hlm0 hkm

/-- `lock_none` transfers when the lock map is unchanged and the updated link
was not settled before (its key's entry cannot be absent). -/
lemma lock_none_live {s : QState} (H : QInv s) {i : Nat} {l l' : Link}
    (hl : s.lk i = some l) (hkey : l'.key = l.key)
    (hlive : ¬ isSettledP l.phase) :
    ∀ k m lm, getLock s.locks k = none →
      (QState.mk (s.links.set i l') s.locks).lk m = some lm →
      lm.key = k → isSettledP lm.phase := by
  intro k m lm hm hlm hkm
  rcases lk_set_cases hlm with ⟨hmi, hml⟩ | ⟨hne, hlm0⟩
  · refine absurd (H.lock_none k i l hm hl ?_) hlive
    rw [← hkey, ← hml, hkm]
  · exact H.lock_none k m lm hm hlm0 hkm

lemma qinv_step {v : QVariant} (hv : v = .main ∨ v = .alt) {a : QLabel}
    {s s' : QState} (hstep : QStep v a s s') (H : QInv s) : QInv s' := by
  cases hstep with
  | enqueue s key task =>
    have hep : enqPred v s.locks key = getLock s.locks key := by
      rcases hv with rfl | rfl <;> rfl
    have hel : enqLocks v s.locks key s.links.length =
        setLock s.locks key s.links.length := by
      rcases hv with rfl | rfl <;> rfl
    rw [hep, hel]
    constructor
    · -- lock_mem
      intro k m hm
      by_cases hk : k = key
      · subst hk
        rw [getLock_setLock_self] at hm
        have hmn : m = s.links.length := (Option.some.inj hm).symm
        subst hmn
        exact ⟨_, lk_append_new s _ _, rfl, rfl⟩
      · rw [getLock_setLock_other _ _ _ _ hk] at hm
        obtain ⟨lm, hlm, hkm, hcm⟩ := H.lock_mem k m hm
        exact ⟨lm, lk_append_old hlm _ _, hkm, hcm⟩
    · -- lock_latest
      intro k m j lj hm hmj hj
      by_cases hk : k = key
      · subst hk
        rw [getLock_setLock_self] at hm
        have hmn : m = s.links.length := (Option.some.inj hm).symm
        subst hmn
        rcases lk_append_cases hj with hj0 | ⟨hjn, hml⟩
        · exact absurd (Nat.lt_trans hmj (lk_lt_length hj0)) (Nat.lt_irrefl _)
        · rw [hjn] at hmj
          exact absurd hmj (Nat.lt_irrefl _)
      · rw [getLock_setLock_other _ _ _ _ hk] at hm
        rcases lk_append_cases hj with hj0 | ⟨hjn, hml⟩
        · exact H.lock_latest k m j lj hm hmj hj0
        · rw [hml]
          intro hcon
          exact hk hcon.symm
    · -- lock_none
      intro k m lm hm hlm hkm
      by_cases hk : k = key
      · subst hk
        rw [getLock_setLock_self] at hm
        exact absurd hm (by simp)
      · rw [getLock_setLock_other _ _ _ _ hk] at hm
        rcases lk_append_cases hlm with hlm0 | ⟨hmn, hml⟩
        · exact H.lock_none k m lm hm hlm0 hkm
        · rw [hml] at hkm
          exact absurd hkm.symm hk
    · -- pred_max
      intro j m p i0 li hj hp hij hi hkm
      rcases lk_append_cases hj with hj0 | ⟨hjn, hml⟩
      · rcases lk_append_cases hi with hi0 | ⟨hin, hli⟩
        · exact H.pred_max j m p i0 li hj0 hp hij hi0 hkm
        · rw [hin] at hij
          exact absurd (Nat.lt_trans hij (lk_lt_length hj0)) (Nat.lt_irrefl _)
      · rcases lk_append_cases hi with hi0 | ⟨hin, hli⟩
        · have hgl : getLock s.locks key = some p := by
            rw [hml] at hp
            simpa using hp
          by_cases hle : i0 ≤ p
          · exact hle
          · have hlt : p < i0 := Nat.not_le.mp hle
            refine absurd ?_ (H.lock_latest key p i0 li hgl hlt hi0)
            rw [hkm, hml]
        · rw [hin, hjn] at hij
          exact absurd hij (Nat.lt_irrefl _)
    · -- pred_none
      intro j m i0 li hj hpn hij hi hkm
      rcases lk_append_cases hj with hj0 | ⟨hjn, hml⟩
      · rcases lk_append_cases hi with hi0 | ⟨hin, hli⟩
        · exact H.pred_none j m i0 li hj0 hpn hij hi0 hkm
        · rw [hin] at hij
          exact absurd (Nat.lt_trans hij (lk_lt_length hj0)) (Nat.lt_irrefl _)
      · rcases lk_append_cases hi with hi0 | ⟨hin, hli⟩
        · have hgl : getLock s.locks key = none := by
            rw [hml] at hpn
            simpa using hpn
          refine H.lock_none key i0 li hgl hi0 ?_
          rw [hkm, hml]
        · rw [hin, hjn] at hij
          exact absurd hij (Nat.lt_irrefl _)
    · -- pred_key
      intro j m p hj hp
      rcases lk_append_cases hj with hj0 | ⟨hjn, hml⟩
      · obtain ⟨lp, hlp, hkp⟩ := H.pred_key j m p hj0 hp
        exact ⟨lp, lk_append_old hlp _ _, hkp⟩
      · have hgl : getLock s.locks key = some p := by
          rw [hml] at hp
          simpa using hp
        obtain ⟨lp, hlp, hkp, hcp⟩ := H.lock_mem key p hgl
        refine ⟨lp, lk_append_old hlp _ _, ?_⟩
        rw [hkp, hml]
    · -- seq
      intro i0 li j lj hi hj hij hkm hph
      rcases lk_append_cases hj with hj0 | ⟨hjn, hml⟩
      · rcases lk_append_cases hi with hi0 | ⟨hin, hli⟩
        · exact H.seq i0 li j lj hi0 hj0 hij hkm hph
        · rw [hin] at hij
          exact absurd (Nat.lt_trans hij (lk_lt_length hj0)) (Nat.lt_irrefl _)
      · rw [hml] at hph
        exact absurd rfl hph
  | start s i l hl hw hpr =>
    have hbelow : ∀ q lq, q < i → s.lk q = some lq → lq.key = l.key →
        isSettledP lq.phase := by
      cases hpred : l.pred with
      | none => exact fun q lq hq hlq hkq => H.pred_none i l q lq hl hpred hq hlq hkq
      | some p =>
        rw [hpred] at hpr
        obtain ⟨lp, st, b, hlp, hphase⟩ := hpr
        exact settled_below_pred H hl hpred hlp (by rw [hphase]; trivial)
    constructor
    · exact lock_mem_set hl rfl rfl (fun _ _ h => h) H
    · exact lock_latest_set hl rfl (fun _ _ h => h) H
    · exact lock_none_live H hl rfl (by rw [hw]; exact fun h => h)
    · exact pred_max_set hl rfl rfl H
    · exact pred_none_set H hl rfl rfl (by rw [hw]; exact fun h => h.elim)
    · exact pred_key_set hl rfl rfl H
    · exact seq_set H hl rfl hbelow (by rw [hw]; exact fun h => h.elim)
  | skip s i l e hl hw hrej =>
    obtain ⟨p, lp, hpred, hlp, hlpph⟩ := hrej
    have hbelow : ∀ q lq, q < i → s.lk q = some lq → lq.key = l.key →
        isSettledP lq.phase :=
      settled_below_pred H hl hpred hlp (by rw [hlpph]; trivial)
    have hL : skipLocks v s.locks l.key i = s.locks ∨
        skipLocks v s.locks l.key i = delIfCurrent s.locks l.key i := by
      rcases hv with rfl | rfl
      · exact Or.inr rfl
      · exact Or.inl rfl
    constructor
    · exact lock_mem_set hl rfl rfl (getLock_shrink_sub hL) H
    · exact lock_latest_set hl rfl (getLock_shrink_sub hL) H
    · exact lock_none_shrink H hl rfl trivial hL hbelow
    · exact pred_max_set hl rfl rfl H
    · exact pred_none_set H hl rfl rfl (fun _ => trivial)
    · exact pred_key_set hl rfl rfl H
    · exact seq_set H hl rfl hbelow (fun _ => trivial)
  | work s i l k hl hr hk =>
    have hbelow : ∀ q lq, q < i → s.lk q = some lq → lq.key = l.key →
        isSettledP lq.phase := by
      intro q lq hq hlq hkq
      refine H.seq q lq i l hlq hl hq hkq ?_
      rw [hr]
      intro hcon
      exact absurd hcon (by simp)
    constructor
    · exact lock_mem_set hl rfl rfl (fun _ _ h => h) H
    · exact lock_latest_set hl rfl (fun _ _ h => h) H
    · exact lock_none_live H hl rfl (by rw [hr]; exact fun h => h)
    · exact pred_max_set hl rfl rfl H
    · exact pred_none_set H hl rfl rfl (by rw [hr]; exact fun h => h.elim)
    · exact pred_key_set hl rfl rfl H
    · exact seq_set H hl rfl hbelow (by rw [hr]; exact fun h => h.elim)
  | finish s i l k hl hr hk =>
    have hbelow : ∀ q lq, q < i → s.lk q = some lq → lq.key = l.key →
        isSettledP lq.phase := by
      intro q lq hq hlq hkq
      refine H.seq q lq i l hlq hl hq hkq ?_
      rw [hr]
      intro hcon
      exact absurd hcon (by simp)
    have hset' : isSettledP (finishPhase v l.task.out) := by
      obtain ⟨o', ho'⟩ := finishPhase_settled v l.task.out
      rw [ho']
      trivial
    have hL : finishLocks v s.locks l.key i l.task.out = s.locks ∨
        finishLocks v s.locks l.key i l.task.out = delIfCurrent s.locks l.key i := by
      rcases hv with rfl | rfl
      · cases l.task.out with
        | resolved st b => exact Or.inl rfl
        | rejected m => exact Or.inr rfl
      · cases l.task.out with
        | resolved st b => exact Or.inl rfl
        | rejected m => exact Or.inl rfl
    constructor
    · exact lock_mem_set hl rfl rfl (getLock_shrink_sub hL) H
    · exact lock_latest_set hl rfl (getLock_shrink_sub hL) H
    · exact lock_none_shrink H hl rfl hset' hL hbelow
    · exact pred_max_set hl rfl rfl H
    · exact pred_none_set H hl rfl rfl (fun _ => hset')
    · exact pred_key_set hl rfl rfl H
    · exact seq_set H hl rfl hbelow (fun _ => hset')
  | cleanup s i l o hnoq hl hph hc =>
    have hbelow : ∀ q lq, q < i → s.lk q = some lq → lq.key = l.key →
        isSettledP lq.phase := by
      intro q lq hq hlq hkq
      refine H.seq q lq i l hlq hl hq hkq ?_
      rw [hph]
      intro hcon
      exact absurd hcon (by simp)
    have hset' : isSettledP l.phase := by
      rw [hph]
      trivial
    have hL : delIfCurrent s.locks l.key i = s.locks ∨
        delIfCurrent s.locks l.key i = delIfCurrent s.locks l.key i := Or.inr rfl
    constructor
    · -- lock_mem: the surviving entry cannot be the cleaned link
      intro k m hm
      have hm0 : getLock s.locks k = some m := getLock_shrink_sub hL k m hm
      obtain ⟨lm, hlm, hkm, hcm⟩ := H.lock_mem k m hm0
      have hmi : m ≠ i := by
        intro hmieq
        have hlml : lm = l := by
          rw [hmieq] at hlm
          exact Option.some.inj (hlm.symm.trans hl)
        have hkk : k = l.key := by
          rw [← hkm, hlml]
        rw [hkk] at hm0 hm
        rw [hmieq] at hm0
        rw [getLock_del_self s.locks l.key i hm0] at hm
        exact absurd hm (by simp)
      refine ⟨lm, ?_, hkm, hcm⟩
      rw [lk_set_other s i m _ _ (fun he => hmi he.symm)]
      exact hlm
    · exact lock_latest_set hl rfl (getLock_shrink_sub hL) H
    · exact lock_none_shrink H hl rfl hset' hL hbelow
    · exact pred_max_set hl rfl rfl H
    · exact pred_none_set H hl rfl rfl (fun h => h)
    · exact pred_key_set hl rfl rfl H
    · exact seq_set H hl rfl hbelow (fun h => h)

lemma reaches_qinv {v : QVariant} (hv : v = .main ∨ v = .alt) {s : QState}
    (hr : Reaches v qInit s) : QInv s := by
  induction hr with
  | refl => exact qinv_init
  | tail a hra hstep ih => exact qinv_step hv hstep ih

/-! ## Concrete traces -/

lemma reach_sOne : Reaches .main qInit sOne :=
  Reaches.tail (.act 0)
    (Reaches.tail (.act 0)
      (Reaches.tail (.enq "p" tFail) (Reaches.refl qInit)
        (QStep.enqueue qInit "p" tFail))
      (QStep.start sE1 0 ⟨"p", tFail, none, .waiting, false⟩ rfl rfl trivial))
    (QStep.finish sE2 0 ⟨"p", tFail, none, .running 0, false⟩ 0 rfl rfl rfl)

lemma reach_sMid : Reaches .main qInit sMid :=
  Reaches.tail (.act 1)
    (Reaches.tail (.enq "p" tOk) reach_sOne (QStep.enqueue sOne "p" tOk))
    (QStep.start sMid0 1 ⟨"p", tOk, some 0, .waiting, false⟩ rfl rfl
      ⟨⟨"p", tFail, none, .settled (.resolved 500 "boom"), false⟩, 500, "boom",
        rfl, rfl⟩)

lemma reach_sDone : Reaches .main qInit sDone :=
  Reaches.tail (.act 1) reach_sMid
    (QStep.finish sMid 1 ⟨"p", tOk, some 0, .running 0, false⟩ 0 rfl rfl rfl)

lemma reach_sTwoKeys : Reaches .main qInit sTwoKeys :=
  Reaches.tail (.act 1)
    (Reaches.tail (.enq "q" tSlow) reach_sOne (QStep.enqueue sOne "q" tSlow))
    (QStep.start sTwoKeys0 1 ⟨"q", tSlow, none, .waiting, false⟩ rfl rfl trivial)

lemma reach_sOverlap : Reaches .noqueue qInit sOverlap :=
  Reaches.tail (.act 1)
    (Reaches.tail (.act 0)
      (Reaches.tail (.enq "a" tSlow)
        (Reaches.tail (.enq "a" tSlow) (Reaches.refl qInit)
          (QStep.enqueue qInit "a" tSlow))
        (QStep.enqueue nE1 "a" tSlow))
      (QStep.start nE2 0 ⟨"a", tSlow, none, .waiting, false⟩ rfl rfl trivial))
    (QStep.start nE3 1 ⟨"a", tSlow, none, .waiting, false⟩ rfl rfl trivial)

/-! ## Results are the settling task's own results -/

lemma step_tasks {v : QVariant} {a : QLabel} {s s' : QState}
    (h : QStep v a s s') :
    ∀ i l, s.lk i = some l → ∃ l', s'.lk i = some l' ∧ l'.task = l.task := by
  cases h with
  | enqueue s key task =>
    intro i l hl
    exact ⟨l, lk_append_old hl _ _, rfl⟩
  | start s i0 l0 hl0 hw hpr =>
    intro i l hl
    by_cases hii : i = i0
    · subst hii
      have : l0 = l := Option.some.inj (hl0.symm.trans hl)
      subst this
      exact ⟨_, lk_set_self hl0 _ _, rfl⟩
    · exact ⟨l, by rw [lk_set_other s i0 i _ _ (fun he => hii he.symm)]; exact hl, rfl⟩
  | skip s i0 l0 e hl0 hw hrej =>
    intro i l hl
    by_cases hii : i = i0
    · subst hii
      have : l0 = l := Option.some.inj (hl0.symm.trans hl)
      subst this
      exact ⟨_, lk_set_self hl0 _ _, rfl⟩
    · exact ⟨l, by rw [lk_set_other s i0 i _ _ (fun he => hii he.symm)]; exact hl, rfl⟩
  | work s i0 l0 k hl0 hr hk =>
    intro i l hl
    by_cases hii : i = i0
    · subst hii
      have : l0 = l := Option.some.inj (hl0.symm.trans hl)
      subst this
      exact ⟨_, lk_set_self hl0 _ _, rfl⟩
    · exact ⟨l, by rw [lk_set_other s i0 i _ _ (fun he => hii he.symm)]; exact hl, rfl⟩
  | finish s i0 l0 k hl0 hr hk =>
    intro i l hl
    by_cases hii : i = i0
    · subst hii
      have : l0 = l := Option.some.inj (hl0.symm.trans hl)
      subst this
      exact ⟨_, lk_set_self hl0 _ _, rfl⟩
    · exact ⟨l, by rw [lk_set_other s i0 i _ _ (fun he => hii he.symm)]; exact hl, rfl⟩
  | cleanup s i0 l0 o hnoq hl0 hph hc =>
    intro i l hl
    by_cases hii : i = i0
    · subst hii
      have : l0 = l := Option.some.inj (hl0.symm.trans hl)
      subst this
      exact ⟨_, lk_set_self hl0 _ _, rfl⟩
    · exact ⟨l, by rw [lk_set_other s i0 i _ _ (fun he => hii he.symm)]; exact hl, rfl⟩

lemma allR_back {v : QVariant} {a : QLabel} {s s' : QState}
    (h : QStep v a s s') (hA : AllR s') : AllR s := by
  intro i l hl
  obtain ⟨l', hl', ht⟩ := step_tasks h i l hl
  obtain ⟨st, b, hout⟩ := hA i l' hl'
  refine ⟨st, b, ?_⟩
  rw [← ht]
  exact hout

lemma allR_of_bool {s : QState} (h : allResolved s = true) : AllR s := by
  intro i l hl
  have hmem : l ∈ s.links := List.getElem?_mem hl
  have hb := List.all_eq_true.mp h l hmem
  cases hout : l.task.out with
  | resolved st b => exact ⟨st, b, rfl⟩
  | rejected m =>
    rw [allResolved] at h
    rw [hout] at hb
    simp at hb

lemma reaches_ownOut {v : QVariant} (hv : v = .main ∨ v = .alt) {s : QState}
    (hr : Reaches v qInit s) : AllR s → OwnOut s := by
  induction hr with
  | refl =>
    intro hA i l o hl hph
    rw [qInit, QState.lk] at hl
    exact absurd hl (by simp)
  | tail a hra hstep ih =>
    intro hA
    have hA0 := allR_back hstep hA
    have hown := ih hA0
    cases hstep with
    | enqueue s key task =>
      intro i l o hl hph
      rcases lk_append_cases hl with hl0 | ⟨hin, hml⟩
      · exact hown i l o hl0 hph
      · rw [hml] at hph
        exact absurd hph (by simp)
    | start s i0 l0 hl0 hw hpr =>
      intro i l o hl hph
      rcases lk_set_cases hl with ⟨hii, hml⟩ | ⟨hne, hl1⟩
      · rw [hml] at hph
        exact absurd hph (by simp)
      · exact hown i l o hl1 hph
    | skip s i0 l0 e hl0 hw hrej =>
      exfalso
      obtain ⟨p, lp, hpred, hlp, hlpph⟩ := hrej
      have hod := hown p lp (.rejected e) hlp hlpph
      obtain ⟨st, b, hout⟩ := hA0 p lp hlp
      rw [hout] at hod
      exact absurd hod (by simp)
    | work s i0 l0 k hl0 hr0 hk =>
      intro i l o hl hph
      rcases lk_set_cases hl with ⟨hii, hml⟩ | ⟨hne, hl1⟩
      · rw [hml] at hph
        exact absurd hph (by simp)
      · exact hown i l o hl1 hph
    | finish s i0 l0 k hl0 hr0 hk =>
      intro i l o hl hph
      rcases lk_set_cases hl with ⟨hii, hml⟩ | ⟨hne, hl1⟩
      · obtain ⟨st, b, hout⟩ := hA0 i0 l0 hl0
        have hfp : finishPhase v l0.task.out = .settled l0.task.out := by
          rw [hout]
          rcases hv with rfl | rfl <;> rfl
        rw [hml] at hph ⊢
        simp only [hfp] at hph
        have : l0.task.out = o := Phase.settled.inj hph
        rw [← this]
      · exact hown i l o hl1 hph
    | cleanup s i0 l0 o0 hnoq hl0 hph0 hc =>
      intro i l o hl hph
      rcases lk_set_cases hl with ⟨hii, hml⟩ | ⟨hne, hl1⟩
      · rw [hml] at hph ⊢
        exact hown i0 l0 o hl0 hph
      · exact hown i l o hl1 hph

/-! ## Claim theorems: the serializer -/

/-- Claim C1: in the queued variants (`server.ts` and `part_001`), operations
are enqueued as tasks that always settle with a typed Result (the handlers
catch failures into a 500 response, captured by `allResolved`). Then (1) every
settled link delivers its own task's outcome to its enqueuing caller — never an
error derived from a predecessor's failure — and (2) a waiting link whose
predecessor has settled (with any Result, a failure response included) can take
its start step: a failed predecessor does not skip, cancel, or fail it. -/
theorem C1_fault_isolation (v : QVariant) (hv : v = .main ∨ v = .alt)
    (s : QState) (hr : Reaches v qInit s) (hall : allResolved s = true) :
    (∀ i l o, s.lk i = some l → l.phase = .settled o → o = l.task.out)
  ∧ (∀ i l p lp op, s.lk i = some l → l.phase = .waiting → l.pred = some p →
      s.lk p = some lp → lp.phase = .settled op →
      QStep v (.act i) s ⟨s.links.set i { l with phase := .running 0 }, s.locks⟩) := by
  have hA : AllR s := allR_of_bool hall
  have hown : OwnOut s := reaches_ownOut hv hr hA
  constructor
  · exact hown
  · intro i l p lp op hl hw hp hlp hlpph
    have hop : op = lp.task.out := hown p lp op hlp hlpph
    obtain ⟨st, b, hout⟩ := hA p lp hlp
    refine QStep.start s i l hl hw ?_
    rw [hp]
    exact ⟨lp, st, b, hlp, by rw [hlpph, hop, hout]⟩

theorem C1_fault_isolation_witness :
    allResolved sDone = true ∧ Outcome.resolved 200 "ok" = tOk.out :=
  ⟨by decide,
   (C1_fault_isolation .main (Or.inl rfl) sDone reach_sDone (by decide)).1 1
     ⟨"p", tOk, some 0, .settled (.resolved 200 "ok"), false⟩
     (.resolved 200 "ok") rfl rfl⟩

/-- Claim C2 (amended): in the queued variants (`server.ts` and `part_001`),
two operations enqueued for the same name execute strictly sequentially, in
enqueue order, without overlap: if the later one has started, the earlier one
is fully settled, and both can never be mid-execution at once. (The `part_000`
variant has no queue, and its concurrent same-name requests do overlap — see
the counterexample.) -/
theorem C2_sequential (v : QVariant) (hv : v = .main ∨ v = .alt)
    (s : QState) (hr : Reaches v qInit s) (i j : Nat) (li lj : Link)
    (hi : s.lk i = some li) (hj : s.lk j = some lj) (hij : i < j)
    (hk : li.key = lj.key) :
    (lj.phase ≠ .waiting → isSettledP li.phase)
  ∧ (∀ a b, li.phase = .running a → lj.phase = .running b → False) := by
  have H := reaches_qinv hv hr
  constructor
  · exact H.seq i li j lj hi hj hij hk
  · intro a b ha hb
    have h1 : isSettledP li.phase :=
      H.seq i li j lj hi hj hij hk (by rw [hb]; simp)
    rw [ha] at h1
    exact h1

theorem C2_sequential_witness :
    (0 : Nat) < 1 ∧ isSettledP (Phase.settled (.resolved 500 "boom")) :=
  ⟨by decide,
   (C2_sequential .main (Or.inl rfl) sMid reach_sMid 0 1
     ⟨"p", tFail, none, .settled (.resolved 500 "boom"), false⟩
     ⟨"p", tOk, some 0, .running 0, false⟩ rfl rfl (by decide) rfl).1
     (by decide)⟩

/-- Claim C2 counterexample: `part_000` (one of the claim's cited code sites)
has no queue — each accepted request runs immediately. Two concurrently
accepted requests for the same name "a" reach a state in which both are
mid-execution at once: their executions overlap, and the second did not wait
for the first to complete. -/
theorem C2_counterexample :
    Reaches .noqueue qInit sOverlap
  ∧ sOverlap.lk 0 = some ⟨"a", tSlow, none, .running 0, false⟩
  ∧ sOverlap.lk 1 = some ⟨"a", tSlow, none, .running 0, false⟩ :=
  ⟨reach_sOverlap, rfl, rfl⟩

/-- Claim C3: in the queued variants, when a finished (settled, not yet
cleaned) link is still the link stored for its key, its cleanup step removes
the map entry; when a newer link `j` has replaced it in the map, the cleanup
leaves that newer entry untouched; and once every link is cleaned (quiescence)
the map holds no entry, so a later enqueue for any name finds no predecessor
and starts a fresh chain. -/
theorem C3_cleanup (v : QVariant) (hv : v = .main ∨ v = .alt)
    (s : QState) (hr : Reaches v qInit s) :
    (∀ i l o, s.lk i = some l → l.phase = .settled o → l.cleaned = false →
       getLock s.locks l.key = some i →
       QStep v (.act i) s (cleanupSt s i l) ∧
       getLock (cleanupSt s i l).locks l.key = none)
  ∧ (∀ i l o j, s.lk i = some l → l.phase = .settled o → l.cleaned = false →
       getLock s.locks l.key = some j → j ≠ i →
       getLock (cleanupSt s i l).locks l.key = some j)
  ∧ ((∀ i l, s.lk i = some l → l.cleaned = true) →
       ∀ k, getLock s.locks k = none ∧ enqPred v s.locks k = none) := by
  refine ⟨?_, ?_, ?_⟩
  · intro i l o hl hph hc hcur
    refine ⟨QStep.cleanup s i l o ?_ hl hph hc, ?_⟩
    · rcases hv with rfl | rfl <;> simp
    · exact getLock_del_self s.locks l.key i hcur
  · intro i l o j hl hph hc hcur hne
    show getLock (delIfCurrent s.locks l.key i) l.key = some j
    rw [delIfCurrent_of_ne s.locks l.key i
      (by rw [hcur]; intro hcon; exact hne (Option.some.inj hcon))]
    exact hcur
  · intro hall k
    have H := reaches_qinv hv hr
    cases hk : getLock s.locks k with
    | none =>
      refine ⟨rfl, ?_⟩
      rcases hv with rfl | rfl <;> simpa [enqPred] using hk
    | some m =>
      obtain ⟨lm, hlm, hkm, hcm⟩ := H.lock_mem k m hk
      rw [hall m lm hlm] at hcm
      exact absurd hcm (by simp)

theorem C3_cleanup_witness :
    QStep .main (.act 0) sOne
      (cleanupSt sOne 0 ⟨"p", tFail, none, .settled (.resolved 500 "boom"), false⟩)
  ∧ getLock (cleanupSt sOne 0
      ⟨"p", tFail, none, .settled (.resolved 500 "boom"), false⟩).locks "p" = none :=
  (C3_cleanup .main (Or.inl rfl) sOne reach_sOne).1 0
    ⟨"p", tFail, none, .settled (.resolved 500 "boom"), false⟩
    (.resolved 500 "boom") rfl rfl rfl (by decide)

/-! ## Cross-key independence -/

lemma keyView_lk {s t : QState} {k : String} (hag : KeyAgree k s t)
    {p : Nat} {lp : Link} (hlp : s.lk p = some lp) (hkp : lp.key = k) :
    t.lk p = some lp := by
  have h := hag.1 p
  simp only [keyView, hlp, if_pos hkp] at h
  cases htp : t.lk p with
  | none =>
    rw [htp] at h
    exact absurd h (by simp)
  | some lt =>
    rw [htp] at h
    have h' : some lp = if lt.key = k then some lt else none := h
    by_cases h2 : lt.key = k
    · rw [if_pos h2] at h'
      rw [Option.some.inj h']
    · rw [if_neg h2] at h'
      exact absurd h' (by simp)

lemma act_transfer {s t : QState} (Hs : QInv s) (k : String)
    (hag : KeyAgree k s t) {i : Nat} {l : Link} (hl : s.lk i = some l)
    (hk : l.key = k) :
    (∃ s', QStep .main (.act i) s s') → ∃ t', QStep .main (.act i) t t' := by
  intro hex
  obtain ⟨s', hstep⟩ := hex
  have htl : t.lk i = some l := keyView_lk hag hl hk
  cases hstep with
  | start s i0 l0 hl0 hw hpr =>
    have hll : l0 = l := Option.some.inj (hl0.symm.trans hl)
    subst hll
    cases hpred : l0.pred with
    | none =>
      refine ⟨_, QStep.start t i l0 htl hw ?_⟩
      rw [hpred]
      trivial
    | some p =>
      rw [hpred] at hpr
      obtain ⟨lp, st, b, hlp, hph⟩ := hpr
      obtain ⟨lp', hlp', hkp'⟩ := Hs.pred_key i l0 p hl0 hpred
      have hlpl : lp' = lp := Option.some.inj (hlp'.symm.trans hlp)
      subst hlpl
      have htlp : t.lk p = some lp' := keyView_lk hag hlp' (by rw [hkp', hk])
      refine ⟨_, QStep.start t i l0 htl hw ?_⟩
      rw [hpred]
      exact ⟨lp', st, b, htlp, hph⟩
  | skip s i0 l0 e hl0 hw hrej =>
    have hll : l0 = l := Option.some.inj (hl0.symm.trans hl)
    subst hll
    obtain ⟨p, lp, hpred, hlp, hph⟩ := hrej
    obtain ⟨lp', hlp', hkp'⟩ := Hs.pred_key i l0 p hl0 hpred
    have hlpl : lp' = lp := Option.some.inj (hlp'.symm.trans hlp)
    subst hlpl
    have htlp : t.lk p = some lp' := keyView_lk hag hlp' (by rw [hkp', hk])
    exact ⟨_, QStep.skip t i l0 e htl hw ⟨p, lp', hpred, htlp, hph⟩⟩
  | work s i0 l0 k0 hl0 hph hlt =>
    have hll : l0 = l := Option.some.inj (hl0.symm.trans hl)
    subst hll
    exact ⟨_, QStep.work t i l0 k0 htl hph hlt⟩
  | finish s i0 l0 k0 hl0 hph hlt =>
    have hll : l0 = l := Option.some.inj (hl0.symm.trans hl)
    subst hll
    exact ⟨_, QStep.finish t i l0 k0 htl hph hlt⟩
  | cleanup s i0 l0 o hnoq hl0 hph hc =>
    have hll : l0 = l := Option.some.inj (hl0.symm.trans hl)
    subst hll
    exact ⟨_, QStep.cleanup t i l0 o hnoq htl hph hc⟩

lemma keyView_set_frame {s : QState} {i : Nat} {l : Link} (l' : Link)
    {L : List (String × Nat)} (hl : s.lk i = some l) (hkey : l'.key = l.key)
    {k' : String} (hk' : k' ≠ l.key) :
    ∀ j, keyView (QState.mk (s.links.set i l') L) k' j = keyView s k' j := by
  intro j
  by_cases hji : j = i
  · subst hji
    simp only [keyView, lk_set_self hl l' L, hl]
    rw [if_neg (fun he => hk' (he.symm.trans hkey)),
      if_neg (fun he => hk' he.symm)]
  · simp only [keyView, lk_set_other s i j l' L (fun he => hji he.symm)]

/-- Claim C8: operations under distinct names never block or delay one
another. First, whether a link of key `k` can take its next step depends only
on the key-`k` part of the state: any two reachable states of `server.ts`
agreeing on key `k` (its links and its lock entry) enable exactly the same
steps of that link, whatever is running under other names. Second, a step of a
key-`k` link leaves every other name's links and lock entry untouched. -/
theorem C8_cross_key :
    (∀ s t, Reaches .main qInit s → Reaches .main qInit t →
      ∀ k, KeyAgree k s t → ∀ i l, s.lk i = some l → l.key = k →
        ((∃ s', QStep .main (.act i) s s') ↔ (∃ t', QStep .main (.act i) t t')))
  ∧ (∀ s s' i l k', QStep .main (.act i) s s' → s.lk i = some l → k' ≠ l.key →
      (∀ j, keyView s' k' j = keyView s k' j) ∧
      getLock s'.locks k' = getLock s.locks k') := by
  constructor
  · intro s t hrs hrt k hag i l hl hk
    have Hs := reaches_qinv (Or.inl rfl) hrs
    have Ht := reaches_qinv (Or.inl rfl) hrt
    have hagsymm : KeyAgree k t s := ⟨fun j => (hag.1 j).symm, hag.2.symm⟩
    have htl : t.lk i = some l := keyView_lk hag hl hk
    exact ⟨act_transfer Hs k hag hl hk, act_transfer Ht k hagsymm htl hk⟩
  · intro s s' i l k' hstep hl hk'
    cases hstep with
    | start s i0 l0 hl0 hw hpr =>
      have hll : l0 = l := Option.some.inj (hl0.symm.trans hl)
      subst hll
      exact ⟨keyView_set_frame { l0 with phase := .running 0 } hl0 rfl hk', rfl⟩
    | skip s i0 l0 e hl0 hw hrej =>
      have hll : l0 = l := Option.some.inj (hl0.symm.trans hl)
      subst hll
      exact ⟨keyView_set_frame { l0 with phase := .settled (skipOutcome .main e) }
          hl0 rfl hk',
        getLock_del_other s.locks l0.key k' i hk'⟩
    | work s i0 l0 k0 hl0 hph hlt =>
      have hll : l0 = l := Option.some.inj (hl0.symm.trans hl)
      subst hll
      exact ⟨keyView_set_frame { l0 with phase := .running (k0 + 1) } hl0 rfl hk', rfl⟩
    | finish s i0 l0 k0 hl0 hph hlt =>
      have hll : l0 = l := Option.some.inj (hl0.symm.trans hl)
      subst hll
      refine ⟨keyView_set_frame { l0 with phase := finishPhase .main l0.task.out }
        hl0 rfl hk', ?_⟩
      cases hout : l0.task.out with
      | resolved st b => rfl
      | rejected m => exact getLock_del_other s.locks l0.key k' i hk'
    | cleanup s i0 l0 o hnoq hl0 hph hc =>
      have hll : l0 = l := Option.some.inj (hl0.symm.trans hl)
      subst hll
      exact ⟨keyView_set_frame { l0 with cleaned := true } hl0 rfl hk',
        getLock_del_other s.locks l0.key k' i hk'⟩

theorem C8_cross_key_witness :
    (∃ t', QStep .main (.act 0) sTwoKeys t')
  ∧ keyView sTwoKeysW "p" 0 = keyView sTwoKeys "p" 0
  ∧ getLock sTwoKeysW.locks "p" = getLock sTwoKeys.locks "p" := by
  refine ⟨?_, ?_, ?_⟩
  · refine (C8_cross_key.1 sOne sTwoKeys reach_sOne reach_sTwoKeys "p"
      ⟨?_, rfl⟩ 0 ⟨"p", tFail, none, .settled (.resolved 500 "boom"), false⟩
      rfl rfl).mp
      ⟨_, QStep.cleanup sOne 0 ⟨"p", tFail, none,
        .settled (.resolved 500 "boom"), false⟩ (.resolved 500 "boom")
        (by decide) rfl rfl rfl⟩
    intro j
    match j with
    | 0 => rfl
    | 1 => rfl
    | n + 2 => rfl
  · exact (C8_cross_key.2 sTwoKeys sTwoKeysW 1
      ⟨"q", tSlow, none, .running 0, false⟩ "p"
      (QStep.work sTwoKeys 1 ⟨"q", tSlow, none, .running 0, false⟩ 0 rfl rfl
        (by decide)) rfl (by decide)).1 0
  · exact (C8_cross_key.2 sTwoKeys sTwoKeysW 1
      ⟨"q", tSlow, none, .running 0, false⟩ "p"
      (QStep.work sTwoKeys 1 ⟨"q", tSlow, none, .running 0, false⟩ 0 rfl rfl
        (by decide)) rfl (by decide)).2

/-! ## File-system and pipeline lemmas -/

lemma hasFile_map_keyfix (fs : FS) (p : Path) (c : String) (q : Path) :
    hasFile (fs.map (fun e => if e.1 == p then (p, c) else e)) q = hasFile fs q := by
  induction fs with
  | nil => rfl
  | cons e tl ih =>
    show (((if e.1 == p then (p, c) else e).1 == q)
        || hasFile (tl.map (fun e => if e.1 == p then (p, c) else e)) q)
      = ((e.1 == q) || hasFile tl q)
    rw [ih]
    by_cases he : e.1 == p
    · have hep : e.1 = p := by simpa using he
      rw [if_pos he, ← hep]
    · rw [if_neg he]

lemma hasFile_writeFile {fs : FS} {p : Path} (h : hasFile fs p = true)
    (c : String) (q : Path) :
    hasFile (writeFile fs p c) q = hasFile fs q := by
  rw [writeFile, if_pos h]
  exact hasFile_map_keyfix fs p c q

lemma runPipeline_all {runs : Cmd → Bool} (h : ∀ c, runs c = true)
    (cmds : List Cmd) : runPipeline runs cmds = (cmds, .ok ()) := by
  induction cmds with
  | nil => rfl
  | cons c rest ih => simp [runPipeline, h c, ih]

/-! ## Claim theorems: the update tasks (C4, C10) -/

/-- Claim C4 counterexample: two cited behaviors contradict the claim. In
`server.ts`, a supplied-but-empty `view` (payload `{view: ""}`: the field is
present, so view content was supplied) is falsy, so no pipeline step runs even
though content was supplied. In `part_000`, a supplied non-empty `view` re-runs
only `pnpm build` — not the full install-then-build pipeline. -/
theorem C4_counterexample :
    ((some "" : Option String).isSome = true
      ∧ (serverTs_update_task (fun _ => true) ["components"] "a"
          (some "") none fsDemo).2.1 = []
      ∧ (serverTs_update_task (fun _ => true) ["components"] "a"
          (some "") none fsDemo).2.2 = .ok ())
  ∧ ((part000_update_task (fun _ => true) ["components"] "a"
        (some "x") none fsDemo).2.1 = [pnpmBuild ["components"] "a"]
      ∧ pnpmBuild ["components"] "a" ≠ pnpmInstall ["components"] "a") :=
  ⟨⟨rfl, by decide, rfl⟩, ⟨by decide, by decide⟩⟩

/-- Claim C4 (amended): an update re-runs its variant's pipeline — `pnpm
install` then `pnpm build` in `server.ts` and `part_001`, `pnpm build` only in
`part_000` — iff at least one of the view/server contents was supplied as a
truthy (non-empty) string; when neither is truthy, no pipeline step runs and
the operation succeeds (in `part_001` after its unconditional `_package`
removal). -/
theorem C4_amended (runs : Cmd → Bool) (o : Path) (name : String)
    (view server : Option String) (fs : FS) (hruns : ∀ c, runs c = true) :
    ((truthy view || truthy server) = false →
      serverTs_update_task runs o name view server fs = (fs, [], .ok ())
      ∧ part000_update_task runs o name view server fs = (fs, [], .ok ())
      ∧ part001_update_task runs o name view server fs
          = (rmTree fs (o ++ [name, "_package"]), [], .ok ()))
  ∧ ((truthy view || truthy server) = true →
      (truthy view = true → hasFile fs (view_path o name) = true) →
      (truthy server = true → hasFile fs (server_path o name) = true) →
      (serverTs_update_task runs o name view server fs).2
        = ([pnpmInstall o name, pnpmBuild o name], .ok ()))
  ∧ ((truthy view || truthy server) = true →
      (truthy view = true →
        hasFile (rmTree fs (o ++ [name, "_package"])) (view_path o name) = true) →
      (truthy server = true →
        hasFile (rmTree fs (o ++ [name, "_package"])) (server_path o name) = true) →
      (part001_update_task runs o name view server fs).2
        = ([pnpmInstall o name, pnpmBuild o name], .ok ()))
  ∧ ((truthy view || truthy server) = true →
      (truthy view = true → hasFile fs (view_path o name) = true) →
      (truthy server = true → hasFile fs (server_path_p000 o name) = true) →
      (part000_update_task runs o name view server fs).2
        = ([pnpmBuild o name], .ok ())) := by
  have hpipe := runPipeline_all hruns
  refine ⟨?_, ?_, ?_, ?_⟩
  · intro h
    rw [Bool.or_eq_false_iff] at h
    obtain ⟨hv, hs⟩ := h
    refine ⟨?_, ?_, ?_⟩ <;>
      simp [serverTs_update_task, part000_update_task, part001_update_task, hv, hs]
  · intro h hv hs
    cases htv : truthy view with
    | true =>
      have hvf := hv htv
      cases hts : truthy server with
      | true =>
        have hsf : hasFile (writeFile fs (view_path o name) (view.getD ""))
            (server_path o name) = true := by
          rw [hasFile_writeFile hvf]
          exact hs hts
        simp [serverTs_update_task, htv, hts, update_view, update_server,
          hvf, hsf, hpipe]
      | false =>
        simp [serverTs_update_task, htv, hts, update_view, hvf, hpipe]
    | false =>
      have hts : truthy server = true := by
        rw [htv] at h
        simpa using h
      have hsf := hs hts
      simp [serverTs_update_task, htv, hts, update_server, hsf, hpipe]
  · intro h hv hs
    cases htv : truthy view with
    | true =>
      have hvf := hv htv
      cases hts : truthy server with
      | true =>
        have hsf : hasFile
            (writeFile (rmTree fs (o ++ [name, "_package"])) (view_path o name)
              (view.getD "")) (server_path o name) = true := by
          rw [hasFile_writeFile hvf]
          exact hs hts
        simp [part001_update_task, htv, hts, update_view, update_server,
          hvf, hsf, hpipe]
      | false =>
        simp [part001_update_task, htv, hts, update_view, hvf, hpipe]
    | false =>
      have hts : truthy server = true := by
        rw [htv] at h
        simpa using h
      have hsf := hs hts
      simp [part001_update_task, htv, hts, update_server, hsf, hpipe]
  · intro h hv hs
    cases htv : truthy view with
    | true =>
      have hvf := hv htv
      cases hts : truthy server with
      | true =>
        have hsf : hasFile (writeFile fs (view_path o name) (view.getD ""))
            (server_path_p000 o name) = true := by
          rw [hasFile_writeFile hvf]
          exact hs hts
        simp [part000_update_task, htv, hts, update_view, update_server_p000,
          hvf, hsf, hpipe]
      | false =>
        simp [part000_update_task, htv, hts, update_view, hvf, hpipe]
    | false =>
      have hts : truthy server = true := by
        rw [htv] at h
        simpa using h
      have hsf := hs hts
      simp [part000_update_task, htv, hts, update_server_p000, hsf, hpipe]

theorem C4_amended_witness :
    (truthy (some "v") || truthy none) = true
  ∧ (serverTs_update_task (fun _ => true) ["components"] "a"
      (some "v") none fsDemo).2
      = ([pnpmInstall ["components"] "a", pnpmBuild ["components"] "a"], .ok ())
  ∧ serverTs_update_task (fun _ => true) ["components"] "a" none none fsDemo
      = (fsDemo, [], .ok ()) :=
  ⟨by decide,
   (C4_amended (fun _ => true) ["components"] "a" (some "v") none fsDemo
     (fun _ => rfl)).2.1 (by decide) (fun _ => by decide) (fun hc => by cases hc),
   ((C4_amended (fun _ => true) ["components"] "a" none none fsDemo
     (fun _ => rfl)).1 (by decide)).1⟩

/-- Claim C10: the `part_001` update task always begins by recursively,
forcibly removing the project's `_package` subdirectory — before looking at
the payload — so an update with neither view nor server supplied still changes
the file system to `rmTree fs (OUTPUT_DIR/name/_package)` and then succeeds
with no pipeline step; on a concrete file system holding a `_package` file,
that file is gone afterwards. -/
theorem C10_rm_package (runs : Cmd → Bool) (o : Path) (name : String) (fs : FS) :
    part001_update_task runs o name none none fs
      = (rmTree fs (o ++ [name, "_package"]), [], .ok ())
  ∧ part001_update_task (fun _ => true) ["c"] "a" none none
      [((["c", "a", "_package", "x.js"] : Path), "z"),
       ((["c", "a", "src", "App.vue"] : Path), "v")]
      = ([((["c", "a", "src", "App.vue"] : Path), "v")], [], .ok ()) :=
  ⟨rfl, rfl⟩

/-! ## Claim theorems: the manifest rewrite (C5) -/

lemma processRepl_no_dollar (before matched after : List Char) :
    ∀ repl, ('$' : Char) ∉ repl →
      processRepl before matched after repl = repl := by
  intro repl h
  induction repl with
  | nil => rfl
  | cons c rest ih =>
    have hc : (c == '$') = false := by
      simp only [beq_eq_false_iff_ne, ne_eq]
      intro he
      exact h (he ▸ List.mem_cons_self c rest)
    have hrest : ('$' : Char) ∉ rest := fun hm => h (List.mem_cons_of_mem c hm)
    rw [processRepl.eq_def]
    simp only [hc]
    rw [ih hrest]
    simp

lemma wordScanAux_congr (emit1 emit2 : List Char → List Char → List Char)
    (h : ∀ b a, emit1 b a = emit2 b a) :
    ∀ fuel pw before s, wordScanAux emit1 fuel pw before s
      = wordScanAux emit2 fuel pw before s := by
  intro fuel
  induction fuel with
  | zero => intro pw before s; rfl
  | succ n ih =>
    intro pw before s
    cases s with
    | nil => rfl
    | cons c rest =>
      simp only [wordScanAux]
      by_cases hcond : (((c :: rest).take 8 == TEMPLATE_WORD) && !pw
          && boundAfter ((c :: rest).drop 8)) = true
      · rw [if_pos hcond, if_pos hcond, h, ih]
      · rw [if_neg hcond, if_neg hcond, ih]

lemma js_literal_eq {name : String} (h : ('$' : Char) ∉ name.data) (s : String) :
    jsReplaceWordTemplate s name = literalReplaceWordTemplate s name := by
  rw [jsReplaceWordTemplate, literalReplaceWordTemplate]
  rw [wordScanAux_congr _ _
    (fun b a => processRepl_no_dollar b TEMPLATE_WORD a name.data h)]

/-- Claim C5 counterexample: the replacement string of a JavaScript `replace`
undergoes `$`-pattern substitution. The project name `"$&"` passes validation
(no slash, nonempty), yet rewriting `{"build": "run template build"}` with it
re-inserts the matched word: the script stays `"run template build"` instead of
becoming `"run $& build"`, so the standalone word `template` is not replaced
by the name. -/
theorem C5_counterexample :
    valid_name "$&" = true
  ∧ update_package_json ⟨"template", [("build", "run template build")]⟩ "$&"
      = ⟨"$&", [("build", "run template build")]⟩
  ∧ update_package_json ⟨"template", [("build", "run template build")]⟩ "$&"
      ≠ ⟨"$&", [("build", "run $& build")]⟩ :=
  ⟨by decide, by decide, by decide⟩

/-- Claim C5 (amended): for every project name containing no `$` character,
`update_package_json` sets the declared name field to the name and replaces
exactly the standalone word `template` (word-boundary match) with the name,
literally, in every script value; names containing `$` are instead subject to
JavaScript replacement-pattern processing. In particular scripts
`{"build": "run template build"}` with name `acme` become
`{"build": "run acme build"}`, and an occurrence of `templates` is left
unmodified. -/
theorem C5_amended :
    (∀ name : String, ('$' : Char) ∉ name.data → ∀ pkg : Pkg,
      update_package_json pkg name =
        { name := name,
          scripts := pkg.scripts.map
            (fun kv => (kv.1, literalReplaceWordTemplate kv.2 name)) })
  ∧ update_package_json ⟨"template", [("build", "run template build")]⟩ "acme"
      = ⟨"acme", [("build", "run acme build")]⟩
  ∧ update_package_json ⟨"x", [("build", "run templates build")]⟩ "acme"
      = ⟨"acme", [("build", "run templates build")]⟩ := by
  refine ⟨?_, by decide, by decide⟩
  intro name h pkg
  rw [update_package_json]
  have : (fun kv : String × String => (kv.1, jsReplaceWordTemplate kv.2 name))
      = (fun kv : String × String => (kv.1, literalReplaceWordTemplate kv.2 name)) := by
    funext kv
    rw [js_literal_eq h]
  rw [this]

theorem C5_amended_witness :
    ('$' : Char) ∉ "acme".data
  ∧ update_package_json ⟨"template", [("build", "run template build")]⟩ "acme"
      = ⟨"acme", [("build",
          literalReplaceWordTemplate "run template build" "acme")]⟩ :=
  ⟨by decide,
   C5_amended.1 "acme" (by decide) ⟨"template", [("build", "run template build")]⟩⟩

/-! ## Claim theorems: mutation preconditions (C6) -/

/-- Claim C6 counterexample: in `part_000`, the target of the server-file
mutation is `OUTPUT_DIR/name/server.ts`, at the project-directory root — not a
path inside the project's `src` source subdirectory as the claim describes. -/
theorem C6_counterexample :
    server_path_p000 ["components"] "a" = ["components", "a", "server.ts"]
  ∧ isUnder (["components"] ++ ["a", "src"])
      (server_path_p000 ["components"] "a") = false
  ∧ isUnder (["components"] ++ ["a", "src"])
      (server_path ["components"] "a") = true :=
  ⟨rfl, by decide, by decide⟩

/-- Claim C6 (amended): whenever the mutation target (`src/App.vue` for the
view in all variants; `src/server.ts` for the server in `server.ts` and
`part_001`, but `server.ts` at the project root in `part_000`) does not already
exist, the mutation fails with the not-found error and leaves the file system
unchanged; and in every case the mutation creates no file: the set of existing
paths is exactly preserved, so only an existing file is ever overwritten. -/
theorem C6_amended (o : Path) (name content : String) (fs : FS) :
    (hasFile fs (view_path o name) = false →
      update_view o name content fs
        = (fs, .error (.notFound (view_path o name))))
  ∧ (hasFile fs (server_path o name) = false →
      update_server o name content fs
        = (fs, .error (.notFound (server_path o name))))
  ∧ (hasFile fs (server_path_p000 o name) = false →
      update_server_p000 o name content fs
        = (fs, .error (.notFound (server_path_p000 o name))))
  ∧ (∀ q, hasFile (update_view o name content fs).1 q = hasFile fs q)
  ∧ (∀ q, hasFile (update_server o name content fs).1 q = hasFile fs q)
  ∧ (∀ q, hasFile (update_server_p000 o name content fs).1 q = hasFile fs q) := by
  refine ⟨?_, ?_, ?_, ?_, ?_, ?_⟩
  · intro h
    simp [update_view, h]
  · intro h
    simp [update_server, h]
  · intro h
    simp [update_server_p000, h]
  · intro q
    by_cases h : hasFile fs (view_path o name) = true
    · rw [update_view, if_pos h]
      exact hasFile_writeFile h content q
    · rw [update_view, if_neg h]
  · intro q
    by_cases h : hasFile fs (server_path o name) = true
    · rw [update_server, if_pos h]
      exact hasFile_writeFile h content q
    · rw [update_server, if_neg h]
  · intro q
    by_cases h : hasFile fs (server_path_p000 o name) = true
    · rw [update_server_p000, if_pos h]
      exact hasFile_writeFile h content q
    · rw [update_server_p000, if_neg h]

theorem C6_amended_witness :
    hasFile [] (server_path [] "never-scaffolded") = false
  ∧ update_server [] "never-scaffolded" "content" []
      = ([], .error (.notFound ["never-scaffolded", "src", "server.ts"]))
  ∧ hasFile (update_server [] "never-scaffolded" "content" []).1
      ["never-scaffolded", "src", "server.ts"] = false :=
  ⟨rfl,
   (C6_amended [] "never-scaffolded" "content" []).2.1 rfl,
   (C6_amended [] "never-scaffolded" "content" []).2.2.2.2.1
     ["never-scaffolded", "src", "server.ts"]⟩

/-! ## Claim theorems: the build-pipeline step (C7) -/

/-- Claim C7 counterexample: `part_000`'s `run_command` registers no handler
for the child process `error` event, so when the process cannot be spawned
neither `resolve` nor `reject` ever fires: the promise never settles and no
result — `SpawnError` included — is produced. -/
theorem C7_counterexample :
    run_command_p000 (.spawnFail "spawn pnpm ENOENT") = .noResult
  ∧ run_command_p000 (.spawnFail "spawn pnpm ENOENT")
      ≠ .spawnError "spawn pnpm ENOENT" :=
  ⟨rfl, by decide⟩

/-- Claim C7 (amended): in `server.ts` and `part_001`, `run_command` succeeds
iff the spawned process exits with status zero, fails with the pipeline error
carrying the exit code on a nonzero exit, and fails with the spawn error when
the process could not be started; `part_000` behaves identically on exit
events, but on a spawn failure it never produces any result. -/
theorem C7_amended :
    (∀ e, run_command e = .success ↔ e = .closed 0)
  ∧ (∀ code : Int, code ≠ 0 → run_command (.closed code) = .pipelineError code)
  ∧ (∀ msg, run_command (.spawnFail msg) = .spawnError msg)
  ∧ (∀ code : Int, run_command_p000 (.closed code) = run_command (.closed code))
  ∧ (∀ msg, run_command_p000 (.spawnFail msg) = .noResult) := by
  refine ⟨?_, ?_, ?_, ?_, ?_⟩
  · intro e
    cases e with
    | closed code =>
      by_cases hc : code = 0
      · subst hc
        simp [run_command]
      · simp [run_command, hc]
    | spawnFail msg => simp [run_command]
  · intro code hc
    simp [run_command, hc]
  · intro msg
    rfl
  · intro code
    rfl
  · intro msg
    rfl

theorem C7_amended_witness :
    (2 : Int) ≠ 0 ∧ run_command (.closed 2) = .pipelineError 2 :=
  ⟨by decide, C7_amended.2.1 2 (by decide)⟩

/-! ## Claim theorems: name validation and the ".." escape (C9) -/

lemma foldl_normStep_good : ∀ (segs acc : List String),
    (∀ seg ∈ segs, ¬(seg = "" ∨ seg = "." ∨ seg = "..")) →
    segs.foldl normStep acc = acc ++ segs := by
  intro segs
  induction segs with
  | nil =>
    intro acc h
    simp
  | cons a tl ih =>
    intro acc h
    have ha := h a (List.mem_cons_self a tl)
    push_neg at ha
    obtain ⟨h1, h2, h3⟩ := ha
    have hstep : normStep acc a = acc ++ [a] := by
      rw [normStep]
      rw [if_neg (by simp [h1, h2]), if_neg (by simp [h3])]
    rw [List.foldl_cons, hstep,
      ih (acc ++ [a]) (fun seg hs => h seg (List.mem_cons_of_mem a hs))]
    simp

/-- Claim C9: the name validation accepts every nonempty (trimmed) string with
no slash and no backslash; in particular it accepts `".."`, which is then used
as a directory name, and for that name the scaffold target
`path.join(OUTPUT_DIR, name)` normalizes to the parent of the output root — a
directory outside the output root. -/
theorem C9_validation :
    (∀ name : String, name ≠ "" → (∀ c ∈ name.data, c ≠ '/' ∧ c ≠ '\\') →
      valid_name name = true)
  ∧ valid_name ".." = true
  ∧ (∀ o : Path, o ≠ [] → (∀ seg ∈ o, ¬(seg = "" ∨ seg = "." ∨ seg = "..")) →
      create_template_target o ".." = o.dropLast
      ∧ isUnder o (create_template_target o "..") = false) := by
  refine ⟨?_, by decide, ?_⟩
  · intro name hne hchars
    rw [valid_name]
    have h1 : (name == "") = false := by simpa using hne
    have h2 : name.data.any (fun c => c == '/' || c == '\\') = false := by
      rw [List.any_eq_false]
      intro c hc
      obtain ⟨hc1, hc2⟩ := hchars c hc
      simp [hc1, hc2]
    rw [h1, h2]
    rfl
  · intro o hne hgood
    have htarget : create_template_target o ".." = o.dropLast := by
      rw [create_template_target, normSegs, List.foldl_append,
        foldl_normStep_good o [] hgood]
      rfl
    refine ⟨htarget, ?_⟩
    rw [htarget, isUnder]
    have hlen : o.dropLast.length < o.length := by
      rw [List.length_dropLast]
      have := List.length_pos.mpr hne
      omega
    have htake : o.dropLast.take o.length = o.dropLast :=
      List.take_of_length_le (Nat.le_of_lt hlen)
    rw [htake]
    have hneq : o ≠ o.dropLast := by
      intro he
      have := congrArg List.length he
      omega
    simpa using hneq

theorem C9_validation_witness :
    valid_name ".." = true
  ∧ create_template_target ["home", "components"] ".." = ["home"]
  ∧ isUnder ["home", "components"]
      (create_template_target ["home", "components"] "..") = false := by
  refine ⟨C9_validation.1 ".." (by decide) (by decide), ?_, ?_⟩
  · have h := (C9_validation.2.2 ["home", "components"] (by decide) (by decide)).1
    rw [h]
    rfl
  · exact (C9_validation.2.2 ["home", "components"] (by decide) (by decide)).2

end Sylas
